import Mathlib

/-!
Verification development for the cell-design repository: a shallow embedding of
the two analysis pipelines (the NPR Variability Sampler and the Rate Sweep
Harness) over exact rationals, with theorems settling the specified properties.
-/

namespace CellDesign

/-! ## Variability Sampler (NPR variability notebook) -/

/-- Constant from the notebook: mean negative-electrode loading, mg/cm^2. -/
def NEG_LOADING_MEAN : ℚ := 14.85

/-- Constant from the notebook: mean positive-electrode loading, mg/cm^2. -/
def POS_LOADING_MEAN : ℚ := 24.69

/-- Constant from the notebook: negative specific capacity, mAh/g. -/
def NEG_QSP : ℚ := 372

/-- Constant from the notebook: positive specific capacity, mAh/g. -/
def POS_QSP : ℚ := 224

/-- Constant from the notebook: negative loading coefficient of variation. -/
def NEG_LOADING_CV : ℚ := 0.02

/-- Constant from the notebook: positive loading coefficient of variation. -/
def POS_LOADING_CV : ℚ := 0.03

/-- Derived constant: `neg_loading_std = NEG_LOADING_MEAN * NEG_LOADING_CV`. -/
def neg_loading_std : ℚ := NEG_LOADING_MEAN * NEG_LOADING_CV

/-- Derived constant: `pos_loading_std = POS_LOADING_MEAN * POS_LOADING_CV`. -/
def pos_loading_std : ℚ := POS_LOADING_MEAN * POS_LOADING_CV

/-- Constant from the notebook: anode loading increase factor of scenario 2. -/
def ANODE_LOADING_INCREASE_FACTOR : ℚ := 1.05

/-- Model of `np.random.normal(mean, std, n)` drawing from the process-wide
seeded stream: the stream supplies the standard-normal variates in draw order,
and `cursor` is the position of the stream before this call.  The call consumes
draws `cursor, cursor+1, ..., cursor+n-1`. -/
def normalDraws (stream : ℕ → ℚ) (cursor : ℕ) (mean std : ℚ) (n : ℕ) : List ℚ :=
  (List.range n).map (fun i => mean + std * stream (cursor + i))

/-- Embeds `loading * qsp / 1000` (elementwise areal capacity). -/
def areal_capacity (loading : List ℚ) (qsp : ℚ) : List ℚ :=
  loading.map (fun x => x * qsp / 1000)

/-- Embeds `neg_loading = np.random.normal(NEG_LOADING_MEAN, neg_loading_std, N)`,
the first `N` draws after seeding. -/
def neg_loading (stream : ℕ → ℚ) (N : ℕ) : List ℚ :=
  normalDraws stream 0 NEG_LOADING_MEAN neg_loading_std N

/-- Embeds `pos_loading = np.random.normal(POS_LOADING_MEAN, pos_loading_std, N)`,
drawn immediately after the negative loadings (cursor `N`). -/
def pos_loading (stream : ℕ → ℚ) (N : ℕ) : List ℚ :=
  normalDraws stream N POS_LOADING_MEAN pos_loading_std N

/-- Embeds `neg_areal_capacity = neg_loading * NEG_QSP / 1000`. -/
def neg_areal_capacity (stream : ℕ → ℚ) (N : ℕ) : List ℚ :=
  areal_capacity (neg_loading stream N) NEG_QSP

/-- Embeds `pos_areal_capacity = pos_loading * POS_QSP / 1000`. -/
def pos_areal_capacity (stream : ℕ → ℚ) (N : ℕ) : List ℚ :=
  areal_capacity (pos_loading stream N) POS_QSP

/-- Embeds the elementwise NPR `neg_areal_capacity / pos_areal_capacity`. -/
def npr_of (negCap posCap : List ℚ) : List ℚ :=
  List.zipWith (fun x y => x / y) negCap posCap

/-- Embeds `percent_more = (npr_actual < threshold).sum() / len(npr_actual) * 100`.
The notebook hardcodes the threshold to `1`; the spec presents it as a
parameter with default `1.0`, so it is a parameter here. -/
def percent_more (npr : List ℚ) (threshold : ℚ) : ℚ :=
  (((npr.map (fun x => if x < threshold then (1 : ℕ) else 0)).sum : ℚ)
    / (npr.length : ℚ)) * 100

/-- Embeds scenario 2's
`npr_actual = neg_areal_capacity*ANODE_LOADING_INCREASE_FACTOR / pos_areal_capacity`:
the baseline `pos_areal_capacity` (drawn at cursor `N`) is reused verbatim. -/
def npr_actual_scenario2 (stream : ℕ → ℚ) (N : ℕ) : List ℚ :=
  List.zipWith (fun x y => x * ANODE_LOADING_INCREASE_FACTOR / y)
    (neg_areal_capacity stream N) (pos_areal_capacity stream N)

/-- Modelled from the spec: the spec's description of scenario 2 asserts
"positive loading is also re-sampled with a fresh RNG draw, not reused from
the baseline".  Under that reading the positive loadings come from the next
`N` stream positions (cursor `2*N`).  This definition exists only to be
compared with `npr_actual_scenario2`, which embeds the source. -/
def npr_scenario2_respec (stream : ℕ → ℚ) (N : ℕ) : List ℚ :=
  List.zipWith (fun x y => x * ANODE_LOADING_INCREASE_FACTOR / y)
    (neg_areal_capacity stream N)
    (areal_capacity (normalDraws stream (2 * N) POS_LOADING_MEAN pos_loading_std N) POS_QSP)

/-! ## Rate Sweep Harness (power-vs-energy notebook) -/

/-- The time-aligned sequences extracted from one solver result object:
`sol["Time [s]"].data`, `sol["Power [W]"].data`, `sol["Voltage [V]"].data`. -/
structure SolverResult where
  time : List ℚ
  power : List ℚ
  voltage : List ℚ

/-- Embeds `np.cumsum`: the list of partial sums (prefix sums). -/
def cumsum (xs : List ℚ) : List ℚ :=
  (List.range xs.length).map (fun k => (xs.take (k + 1)).sum)

/-- Embeds `np.diff(np.append(0, time))`: consecutive differences with a `0`
prepended, so the first entry is `time[0] - 0`. -/
def diffAppend0 (time : List ℚ) : List ℚ :=
  List.zipWith (fun a b => a - b) time (0 :: time)

/-- Embeds `energy = np.cumsum(power * np.diff(np.append(0, time))) / 3600`. -/
def energySeq (sol : SolverResult) : List ℚ :=
  (cumsum (List.zipWith (fun p d => p * d) sol.power (diffAppend0 sol.time))).map
    (fun x => x / 3600)

/-- Embeds `discharge_energy = energy[-1]` (last cumulative value; the source
indexes an array that is nonempty in every use, embedded totally with
default `0`). -/
def dischargeEnergy (sol : SolverResult) : ℚ :=
  (energySeq sol).getLastD 0

/-- Embeds `np.mean(power)`: arithmetic mean, unweighted by time step. -/
def meanPower (sol : SolverResult) : ℚ :=
  sol.power.sum / (sol.power.length : ℚ)

/-- The aggregate dictionary built by `sweep_c_rate`, one field per metric key. -/
structure Outputs where
  cRate : List ℚ
  energy : List (List ℚ)
  dischargeEnergy : List ℚ
  time : List (List ℚ)
  voltage : List (List ℚ)
  meanPower : List ℚ

/-- The initial aggregate: `"C-rate"` is set to the input list up front, every
other metric starts empty. -/
def initOutputs (C_rates : List ℚ) : Outputs :=
  { cRate := C_rates, energy := [], dischargeEnergy := [], time := [],
    voltage := [], meanPower := [] }

/-- One loop body of `sweep_c_rate` after a successful solve: append each
derived metric for this rate to its sequence. -/
def sweepAppend (o : Outputs) (sol : SolverResult) : Outputs :=
  { o with
    voltage := o.voltage ++ [sol.voltage],
    time := o.time ++ [sol.time],
    energy := o.energy ++ [energySeq sol],
    dischargeEnergy := o.dischargeEnergy ++ [dischargeEnergy sol],
    meanPower := o.meanPower ++ [meanPower sol] }

/-- The sweep loop.  The solver call (experiment construction, `sim.solve`,
series extraction) is one blocking call per rate which either returns the
series or raises; an exception propagates out of the loop at once, which the
embedding renders as `Except`: the first failure aborts with no aggregate. -/
def sweepLoop {ε : Type} (solver : ℚ → Except ε SolverResult) :
    List ℚ → Outputs → Except ε Outputs
  | [], o => Except.ok o
  | r :: rs, o =>
    match solver r with
    | Except.error e => Except.error e
    | Except.ok sol => sweepLoop solver rs (sweepAppend o sol)

/-- Embeds `sweep_c_rate(C_rates, parameter_values)`: the solver argument
stands for the fixed model/parameter/solver configuration applied to one rate. -/
def sweep_c_rate {ε : Type} (C_rates : List ℚ) (solver : ℚ → Except ε SolverResult) :
    Except ε Outputs :=
  sweepLoop solver C_rates (initOutputs C_rates)

/-- Test vector for the Rate Sweep Harness per-point aggregation. -/
def solExample : SolverResult :=
  { time := [1, 2], power := [10, 20], voltage := [4, 3] }

/-! ## Helper lemmas -/

/-- The boolean-mask sum of the source equals a predicate count. -/
lemma sum_indicator_eq_countP (npr : List ℚ) (t : ℚ) :
    (npr.map (fun x => if x < t then (1 : ℕ) else 0)).sum
      = npr.countP (fun x => decide (x < t)) := by
  induction npr with
  | nil => simp
  | cons x xs ih =>
    by_cases hx : x < t <;> simp [List.countP_cons, hx, ih, Nat.add_comm]

/-- Rewrites `percent_more` as a count divided by the length, times 100. -/
lemma percent_more_eq_countP (npr : List ℚ) (t : ℚ) :
    percent_more npr t
      = ((npr.countP (fun x => decide (x < t)) : ℚ) / (npr.length : ℚ)) * 100 := by
  unfold percent_more
  rw [sum_indicator_eq_countP]

/-- The diff-with-prepended-zero sequence has the same length as the time grid. -/
lemma length_diffAppend0 (time : List ℚ) : (diffAppend0 time).length = time.length := by
  simp [diffAppend0]

/-- Prefix sums preserve the length. -/
lemma cumsum_length (xs : List ℚ) : (cumsum xs).length = xs.length := by
  simp [cumsum]

/-- The `k`-th prefix sum is the sum of the first `k + 1` elements. -/
lemma cumsum_getElem (xs : List ℚ) (k : ℕ) (hk : k < xs.length) :
    (cumsum xs).get ⟨k, by rw [cumsum_length]; exact hk⟩ = (xs.take (k + 1)).sum := by
  simp [cumsum]

/-- Option-valued version of `cumsum_getElem`. -/
lemma cumsum_getElem? (xs : List ℚ) (k : ℕ) (hk : k < xs.length) :
    (cumsum xs)[k]? = some ((xs.take (k + 1)).sum) := by
  have hk2 : k < (cumsum xs).length := by rw [cumsum_length]; exact hk
  have hval := cumsum_getElem xs k hk
  rw [List.get_eq_getElem] at hval
  rw [List.getElem?_eq_getElem hk2, hval]

/-- The last prefix sum is the total sum. -/
lemma cumsum_getLastD (xs : List ℚ) : (cumsum xs).getLastD 0 = xs.sum := by
  rcases eq_or_ne xs [] with h | h
  · subst h; simp [cumsum]
  · have hlen : 0 < xs.length := List.length_pos.mpr h
    have hlt : xs.length - 1 < (cumsum xs).length := by rw [cumsum_length]; omega
    rw [List.getLastD_eq_getLast?, List.getLast?_eq_getElem?, cumsum_length,
      List.getElem?_eq_getElem hlt]
    have := cumsum_getElem xs (xs.length - 1) (by omega)
    rw [List.get_eq_getElem] at this
    rw [this, Option.getD_some]
    have : xs.length - 1 + 1 = xs.length := by omega
    rw [this, List.take_length]

/-- A final division distributes through `getLastD` at default `0`. -/
lemma getLastD_map_div (l : List ℚ) (c : ℚ) :
    (l.map (fun x => x / c)).getLastD 0 = l.getLastD 0 / c := by
  have key : ∀ (l : List ℚ) (d : ℚ),
      (l.map (fun x => x / c)).getLastD (d / c) = l.getLastD d / c := by
    intro l
    induction l with
    | nil => intro d; simp
    | cons x xs ih => intro d; simp only [List.map_cons, List.getLastD_cons, ih x]
  calc (l.map (fun x => x / c)).getLastD 0
      = (l.map (fun x => x / c)).getLastD (0 / c) := by rw [zero_div]
    _ = l.getLastD 0 / c := key l 0

/-- The reported discharge energy is the total integrated power over 3600. -/
lemma dischargeEnergy_eq_sum (sol : SolverResult) :
    dischargeEnergy sol
      = (List.zipWith (fun p d => p * d) sol.power (diffAppend0 sol.time)).sum / 3600 := by
  unfold dischargeEnergy energySeq
  rw [getLastD_map_div, cumsum_getLastD]

/-- Telescoping: consecutive differences against the list shifted by one sum
to the last element minus the prepended head. -/
lemma sum_zipWith_sub_cons :
    ∀ (xs : List ℚ) (a : ℚ),
      (List.zipWith (fun x y => x - y) xs (a :: xs)).sum = xs.getLastD a - a := by
  intro xs
  induction xs with
  | nil => intro a; simp
  | cons x xs ih =>
    intro a
    simp only [List.zipWith_cons_cons, List.sum_cons, ih x, List.getLastD_cons]
    ring

/-- The diff-with-prepended-zero sequence sums to the final time. -/
lemma diffAppend0_sum (time : List ℚ) : (diffAppend0 time).sum = time.getLastD 0 := by
  unfold diffAppend0
  rw [sum_zipWith_sub_cons time 0, sub_zero]

/-- Multiplying a constant list elementwise into a sequence scales its sum. -/
lemma sum_zipWith_replicate_mul (P : ℚ) :
    ∀ (ds : List ℚ) (n : ℕ), ds.length = n →
      (List.zipWith (fun p d => p * d) (List.replicate n P) ds).sum = P * ds.sum := by
  intro ds
  induction ds with
  | nil => intro n h; subst h; simp
  | cons d ds ih =>
    intro n h
    subst h
    simp only [List.length_cons, List.replicate_succ, List.zipWith_cons_cons,
      List.sum_cons, ih ds.length rfl, mul_add]

/-- The energy sequence has one entry per time point. -/
lemma energySeq_length (sol : SolverResult) (hlen : sol.power.length = sol.time.length) :
    (energySeq sol).length = sol.time.length := by
  simp [energySeq, cumsum_length, length_diffAppend0, hlen]

/-- Closed form for each entry of the energy sequence: the prefix sum of
`power * dt` up to that index, divided by 3600. -/
lemma energySeq_getElem? (sol : SolverResult) (hlen : sol.power.length = sol.time.length)
    (k : ℕ) (hk : k < sol.time.length) :
    (energySeq sol)[k]?
      = some (((List.zipWith (fun p d => p * d) sol.power (diffAppend0 sol.time)).take (k + 1)).sum
          / 3600) := by
  have hys : (List.zipWith (fun p d => p * d) sol.power (diffAppend0 sol.time)).length
      = sol.time.length := by
    simp [length_diffAppend0, hlen]
  have hk2 : k < (cumsum (List.zipWith (fun p d => p * d) sol.power (diffAppend0 sol.time))).length := by
    rw [cumsum_length, hys]; exact hk
  unfold energySeq
  rw [List.getElem?_map, cumsum_getElem? _ k (by rw [hys]; exact hk), Option.map_some']

/-- First entry of the integrand `power * dt`: `power[0] * (time[0] - 0)`. -/
lemma integrand_get_zero (sol : SolverResult) (hlen : sol.power.length = sol.time.length)
    (h0 : 0 < sol.time.length) :
    (List.zipWith (fun p d => p * d) sol.power (diffAppend0 sol.time)).get
        ⟨0, by simp [length_diffAppend0, hlen]; omega⟩
      = sol.power.get ⟨0, by rw [hlen]; exact h0⟩ * (sol.time.get ⟨0, h0⟩ - 0) := by
  simp only [List.get_eq_getElem, List.getElem_zipWith, diffAppend0,
    List.getElem_cons_zero]

/-- Later entries of the integrand: `power[k+1] * (time[k+1] - time[k])`. -/
lemma integrand_get_succ (sol : SolverResult) (hlen : sol.power.length = sol.time.length)
    (k : ℕ) (hk : k + 1 < sol.time.length) :
    (List.zipWith (fun p d => p * d) sol.power (diffAppend0 sol.time)).get
        ⟨k + 1, by simp [length_diffAppend0, hlen]; omega⟩
      = sol.power.get ⟨k + 1, by rw [hlen]; exact hk⟩
          * (sol.time.get ⟨k + 1, hk⟩ - sol.time.get ⟨k, by omega⟩) := by
  simp only [List.get_eq_getElem, List.getElem_zipWith, diffAppend0,
    List.getElem_cons_succ]

/-! ## Claim theorems -/

/-- C1: for every nonempty ratio sequence and every threshold, the exceedance
statistic of the Variability Sampler equals the count of elements strictly
below the threshold, divided by the sequence length, times 100; an element
equal to the threshold never satisfies the counting predicate. -/
theorem percent_more_is_strict_exceedance (npr : List ℚ) (t : ℚ) (h : npr ≠ []) :
    percent_more npr t
        = ((npr.countP (fun x => decide (x < t)) : ℚ) / (npr.length : ℚ)) * 100
      ∧ (∀ x ∈ npr, x = t → (fun x => decide (x < t)) x = false) := by
  refine ⟨percent_more_eq_countP npr t, ?_⟩
  intro x _ hx
  simp [hx]

/-- Witness for C1 at the concrete sequence `[1/2, 1, 2]`, threshold `1`. -/
theorem percent_more_is_strict_exceedance_witness :
    ([(1 : ℚ)/2, 1, 2] ≠ []) ∧
      (percent_more [(1 : ℚ)/2, 1, 2] 1
          = ((([(1 : ℚ)/2, 1, 2].countP (fun x => decide (x < 1))) : ℚ)
              / (([(1 : ℚ)/2, 1, 2].length : ℚ))) * 100
        ∧ (∀ x ∈ [(1 : ℚ)/2, 1, 2], x = 1 → (fun x => decide (x < 1)) x = false)) :=
  ⟨by decide, percent_more_is_strict_exceedance [(1 : ℚ)/2, 1, 2] 1 (by decide)⟩

/-- C5: sweeping an empty rate list succeeds for every solver (so in particular
without depending on any solver behaviour), and every metric sequence of the
returned aggregate, the `C-rate` entry included, is empty. -/
theorem sweep_c_rate_empty {ε : Type} (solver : ℚ → Except ε SolverResult) :
    sweep_c_rate [] solver
      = Except.ok { cRate := [], energy := [], dischargeEnergy := [],
                    time := [], voltage := [], meanPower := [] } :=
  rfl

/-- C7: the exceedance computation divides by the sample count with no guard:
at `N = 0` the divisor is literally `0` (the total embedding then returns the
junk value `0` of rational division by zero, where the source would fail), and
for every nonempty sequence the divisor is nonzero, so the division is safe. -/
theorem percent_more_division_guard :
    (∀ t : ℚ, ((([] : List ℚ).length : ℚ) = 0) ∧ percent_more [] t = 0)
      ∧ (∀ npr : List ℚ, npr ≠ [] → ((npr.length : ℚ) ≠ 0)) := by
  constructor
  · intro t
    refine ⟨rfl, ?_⟩
    simp [percent_more]
  · intro npr h
    have : npr.length ≠ 0 := by
      intro hl
      exact h (List.length_eq_zero.mp hl)
    exact_mod_cast this

/-- Scaling the numerator by `f ≥ 1` never moves a quotient from `≥ 1` to
`< 1`, whatever the sign of numerator and denominator (division by zero is
the junk value `0`, which is below `1` on both sides). -/
lemma scale_lt_one (f x y : ℚ) (hf : 1 ≤ f) (h : x * f / y < 1) : x / y < 1 := by
  rcases lt_trichotomy y 0 with hy | hy | hy
  · rcases le_or_lt 0 x with hx | hx
    · have hnp : x / y ≤ 0 := div_nonpos_iff.mpr (Or.inl ⟨hx, hy.le⟩)
      exact lt_of_le_of_lt hnp one_pos
    · have h1 : y < x * f := (div_lt_one_of_neg hy).mp h
      have h2 : x * f ≤ x * 1 := mul_le_mul_of_nonpos_left hf hx.le
      rw [mul_one] at h2
      exact (div_lt_one_of_neg hy).mpr (lt_of_lt_of_le h1 h2)
  · rw [hy, div_zero]
    exact one_pos
  · rcases le_or_lt 0 x with hx | hx
    · have h1 : x * f < y := (div_lt_one hy).mp h
      have h2 : x * 1 ≤ x * f := mul_le_mul_of_nonneg_left hf hx
      rw [mul_one] at h2
      exact (div_lt_one hy).mpr (lt_of_le_of_lt h2 h1)
    · exact (div_lt_one hy).mpr (hx.trans hy)

/-- Counting a pointwise-stronger predicate over a zipped list gives at most
as many hits. -/
lemma countP_zipWith_le {α β γ : Type} (xs : List α) (ys : List β)
    (f g : α → β → γ) (p : γ → Bool)
    (h : ∀ x y, p (f x y) = true → p (g x y) = true) :
    (List.zipWith f xs ys).countP p ≤ (List.zipWith g xs ys).countP p := by
  induction xs generalizing ys with
  | nil => simp
  | cons x xs ih =>
    cases ys with
    | nil => simp
    | cons y ys =>
      simp only [List.zipWith_cons_cons, List.countP_cons]
      have := ih ys
      by_cases hp : p (f x y) = true
      · rw [hp, h x y hp]
        omega
      · rw [Bool.eq_false_iff.mpr hp]
        have hle : (if p (g x y) = true then 1 else 0) ≥ 0 := by positivity
        by_cases hq : p (g x y) = true <;> simp [hq] <;> omega

/-- C2: the cumulative energy sequence of the Rate Sweep Harness satisfies
`energy[0] = power[0] * (time[0] - 0) / 3600` and
`energy[k+1] = energy[k] + power[k+1] * (time[k+1] - time[k]) / 3600`, it has
one entry per time point, and the reported discharge energy is its final
element. -/
theorem energy_recurrence (sol : SolverResult)
    (hlen : sol.power.length = sol.time.length) (hpos : 0 < sol.time.length) :
    (energySeq sol).length = sol.time.length
      ∧ (energySeq sol)[0]? = some ((sol.power[0]?.getD 0) * (sol.time[0]?.getD 0 - 0) / 3600)
      ∧ (∀ k, k + 1 < sol.time.length →
          (energySeq sol)[k + 1]?
            = some ((energySeq sol)[k]?.getD 0
                + (sol.power[k + 1]?.getD 0)
                    * (sol.time[k + 1]?.getD 0 - sol.time[k]?.getD 0) / 3600))
      ∧ dischargeEnergy sol = (energySeq sol).getLastD 0 := by
  have hys : (List.zipWith (fun p d => p * d) sol.power (diffAppend0 sol.time)).length
      = sol.time.length := by
    simp [length_diffAppend0, hlen]
  refine ⟨energySeq_length sol hlen, ?_, ?_, rfl⟩
  · have hp0 : 0 < sol.power.length := by rw [hlen]; exact hpos
    have h0ys : 0 < (List.zipWith (fun p d => p * d) sol.power (diffAppend0 sol.time)).length := by
      rw [hys]; exact hpos
    have hsum := List.sum_take_succ
      (List.zipWith (fun p d => p * d) sol.power (diffAppend0 sol.time)) 0 h0ys
    simp only [List.take_zero, List.sum_nil, zero_add] at hsum
    have hint := integrand_get_zero sol hlen hpos
    simp only [List.get_eq_getElem] at hint
    rw [energySeq_getElem? sol hlen 0 hpos, hsum, hint,
      List.getElem?_eq_getElem hp0, List.getElem?_eq_getElem hpos,
      Option.getD_some, Option.getD_some]
  · intro k hk1
    have hk : k < sol.time.length := by omega
    have hp1 : k + 1 < sol.power.length := by rw [hlen]; exact hk1
    have hys1 : k + 1 < (List.zipWith (fun p d => p * d) sol.power (diffAppend0 sol.time)).length := by
      rw [hys]; exact hk1
    have hsum := List.sum_take_succ
      (List.zipWith (fun p d => p * d) sol.power (diffAppend0 sol.time)) (k + 1) hys1
    have hint := integrand_get_succ sol hlen k hk1
    simp only [List.get_eq_getElem] at hint
    rw [energySeq_getElem? sol hlen (k + 1) hk1, energySeq_getElem? sol hlen k hk,
      Option.getD_some, hsum, hint,
      List.getElem?_eq_getElem hp1, List.getElem?_eq_getElem hk1,
      List.getElem?_eq_getElem hk, Option.getD_some, Option.getD_some, Option.getD_some]
    congr 1
    ring

/-- Witness for C2 at a concrete two-point solver result. -/
theorem energy_recurrence_witness :
    solExample.power.length = solExample.time.length
      ∧ 0 < solExample.time.length
      ∧ (energySeq solExample).length = solExample.time.length :=
  ⟨rfl, by decide, (energy_recurrence solExample rfl (by decide)).1⟩

/-- C4: on a synthetic solver result with constant power `P` over a time grid
of `n > 0` points ending at `T`, the per-point aggregation of the Rate Sweep
Harness reports discharge energy exactly `P * T / 3600` and mean power
exactly `P`. -/
theorem constant_power_energy (P T : ℚ) (n : ℕ) (sol : SolverResult)
    (hn : 0 < n) (hT : 0 < T)
    (htlen : sol.time.length = n)
    (hpower : sol.power = List.replicate n P)
    (hlast : sol.time.getLastD 0 = T) :
    dischargeEnergy sol = P * T / 3600 ∧ meanPower sol = P := by
  constructor
  · rw [dischargeEnergy_eq_sum, hpower,
      sum_zipWith_replicate_mul P (diffAppend0 sol.time) n (by rw [length_diffAppend0, htlen]),
      diffAppend0_sum, hlast]
  · unfold meanPower
    rw [hpower, List.sum_replicate, List.length_replicate, nsmul_eq_mul]
    exact mul_div_cancel_left₀ P (Nat.cast_ne_zero.mpr hn.ne')

/-- Witness for C4: constant power `5` over `[1800, 3600]` gives energy
`5 * 3600 / 3600` and mean power `5`. -/
theorem constant_power_energy_witness :
    ((0 : ℕ) < 2 ∧ (0 : ℚ) < 3600)
      ∧ dischargeEnergy { time := [1800, 3600], power := List.replicate 2 5, voltage := [4, 3] }
          = 5 * 3600 / 3600
      ∧ meanPower { time := [1800, 3600], power := List.replicate 2 5, voltage := [4, 3] } = 5 :=
  ⟨⟨by decide, by norm_num⟩,
    constant_power_energy 5 3600 2
      { time := [1800, 3600], power := List.replicate 2 5, voltage := [4, 3] }
      (by decide) (by norm_num) rfl rfl (by norm_num [List.getLastD])⟩

/-- C10: for a solver result with elementwise nonnegative power and a
non-decreasing time grid starting at a nonnegative time, the cumulative
energy sequence is monotonically non-decreasing. -/
theorem energySeq_monotone (sol : SolverResult)
    (hlen : sol.power.length = sol.time.length)
    (hpow : ∀ p ∈ sol.power, 0 ≤ p)
    (htime : List.Chain' (fun a b => a ≤ b) sol.time)
    (hhead : 0 ≤ sol.time.headD 0) :
    List.Chain' (fun a b => a ≤ b) (energySeq sol) := by
  rw [List.chain'_iff_get]
  intro i hi
  have hEn : (energySeq sol).length = sol.time.length := energySeq_length sol hlen
  have hi1 : i + 1 < sol.time.length := by rw [hEn] at hi; omega
  have hii : i < sol.time.length := by omega
  have hys : (List.zipWith (fun p d => p * d) sol.power (diffAppend0 sol.time)).length
      = sol.time.length := by
    simp [length_diffAppend0, hlen]
  have hval_i := energySeq_getElem? sol hlen i hii
  have hval_i1 := energySeq_getElem? sol hlen (i + 1) hi1
  have hgi : i < (energySeq sol).length := by omega
  have hgi1 : i + 1 < (energySeq sol).length := by rw [hEn]; exact hi1
  rw [List.getElem?_eq_getElem hgi] at hval_i
  rw [List.getElem?_eq_getElem hgi1] at hval_i1
  simp only [List.get_eq_getElem]
  rw [Option.some.injEq] at hval_i hval_i1
  rw [hval_i, hval_i1]
  have hsum := List.sum_take_succ
    (List.zipWith (fun p d => p * d) sol.power (diffAppend0 sol.time)) (i + 1)
    (by rw [hys]; exact hi1)
  rw [hsum]
  have hint := integrand_get_succ sol hlen i hi1
  simp only [List.get_eq_getElem] at hint
  rw [hint]
  have hp1 : i + 1 < sol.power.length := by rw [hlen]; exact hi1
  have hpnn : 0 ≤ sol.power[i + 1] := hpow _ (List.getElem_mem hp1)
  have htle : sol.time[i] ≤ sol.time[i + 1] := by
    have := List.chain'_iff_get.mp htime i (by omega)
    simpa [List.get_eq_getElem] using this
  have hprod : 0 ≤ sol.power[i + 1] * (sol.time[i + 1] - sol.time[i]) :=
    mul_nonneg hpnn (by linarith)
  have h3600 : (0 : ℚ) < 3600 := by norm_num
  rw [div_le_div_iff_of_pos_right h3600]
  linarith

/-- Witness for C10 at a concrete two-point solver result. -/
theorem energySeq_monotone_witness :
    (solExample.power.length = solExample.time.length
        ∧ (∀ p ∈ solExample.power, 0 ≤ p)
        ∧ List.Chain' (fun a b => a ≤ b) solExample.time
        ∧ 0 ≤ solExample.time.headD 0)
      ∧ List.Chain' (fun a b => a ≤ b) (energySeq solExample) :=
  ⟨⟨rfl, by decide, by norm_num [solExample, List.chain'_cons], by decide⟩,
    energySeq_monotone solExample rfl (by decide)
      (by norm_num [solExample, List.chain'_cons]) (by decide)⟩

/-- Witness for C7's guarded branch at the singleton sequence `[1]`. -/
theorem percent_more_division_guard_witness :
    (([(1 : ℚ)].length : ℚ) ≠ 0) :=
  percent_more_division_guard.2 [(1 : ℚ)] (by decide)

/-- C3 counterexample: with the fixed positive-capacity sequence `[1]`, the
negative-capacity sequence `[2]` and factor `f = 2 > 1`, the exceedance at
threshold `1` is `0` both before and after scaling, so it does not strictly
decrease. -/
theorem scale_neg_strict_decrease_counterexample :
    (1 : ℚ) < 2
      ∧ ¬ (percent_more (npr_of ([(2 : ℚ)].map (fun x => x * 2)) [(1 : ℚ)]) 1
            < percent_more (npr_of [(2 : ℚ)] [(1 : ℚ)]) 1) := by
  constructor
  · norm_num
  · norm_num [percent_more, npr_of]

/-- C3 (amended): multiplying every negative-capacity value by `f ≥ 1` before
computing the elementwise ratio weakly decreases (never increases) the
exceedance at threshold `1`, for every fixed positive-capacity sequence, and
at `f = 1` it leaves the exceedance unchanged. -/
theorem scale_neg_weakly_decreases_exceedance (neg pos : List ℚ) (f : ℚ)
    (hf : 1 ≤ f) :
    percent_more (npr_of (neg.map (fun x => x * f)) pos) 1
        ≤ percent_more (npr_of neg pos) 1
      ∧ (f = 1 → percent_more (npr_of (neg.map (fun x => x * f)) pos) 1
          = percent_more (npr_of neg pos) 1) := by
  constructor
  · have hlenAB : (npr_of (neg.map (fun x => x * f)) pos).length
        = (npr_of neg pos).length := by
      simp [npr_of]
    rw [percent_more_eq_countP, percent_more_eq_countP, hlenAB]
    have hcnt : (npr_of (neg.map (fun x => x * f)) pos).countP (fun z => decide (z < 1))
        ≤ (npr_of neg pos).countP (fun z => decide (z < 1)) := by
      unfold npr_of
      rw [List.zipWith_map_left]
      exact countP_zipWith_le neg pos (fun x y => x * f / y) (fun x y => x / y)
        (fun z => decide (z < 1))
        (fun x y hp => by
          have hlt : x * f / y < 1 := of_decide_eq_true hp
          exact decide_eq_true (scale_lt_one f x y hf hlt))
    have hcq : ((npr_of (neg.map (fun x => x * f)) pos).countP (fun z => decide (z < 1)) : ℚ)
        ≤ ((npr_of neg pos).countP (fun z => decide (z < 1)) : ℚ) := by
      exact_mod_cast hcnt
    apply mul_le_mul_of_nonneg_right _ (by norm_num : (0 : ℚ) ≤ 100)
    rcases Nat.eq_zero_or_pos (npr_of neg pos).length with h0 | h0
    · rw [h0]
      simp
    · have hq : (0 : ℚ) < ((npr_of neg pos).length : ℚ) := by exact_mod_cast h0
      exact (div_le_div_iff_of_pos_right hq).mpr hcq
  · intro hf1
    subst hf1
    simp [npr_of]

/-- Witness for the amended C3 at `neg = [1, 3]`, `pos = [2, 2]`, `f = 2`:
the exceedance drops from 50 percent to 0 percent. -/
theorem scale_neg_weakly_decreases_exceedance_witness :
    ((1 : ℚ) ≤ 2)
      ∧ percent_more (npr_of ([(1 : ℚ), 3].map (fun x => x * 2)) [2, 2]) 1
          ≤ percent_more (npr_of [(1 : ℚ), 3] [2, 2]) 1 :=
  ⟨by decide,
    (scale_neg_weakly_decreases_exceedance [1, 3] [2, 2] 2 (by decide)).1⟩

/-- A sweep whose rate list contains a rate on which the solver fails never
reaches the success continuation: the loop propagates the first error. -/
lemma sweepLoop_error {ε : Type} (solver : ℚ → Except ε SolverResult) :
    ∀ (rs : List ℚ) (o : Outputs),
      (∃ r ∈ rs, ∃ e, solver r = Except.error e) →
      ∃ e, sweepLoop solver rs o = Except.error e := by
  intro rs
  induction rs with
  | nil =>
    intro o h
    simp at h
  | cons r rs ih =>
    intro o h
    cases hsr : solver r with
    | error e =>
      exact ⟨e, by simp [sweepLoop, hsr]⟩
    | ok sol =>
      rcases h with ⟨r', hr', e', he'⟩
      rcases List.mem_cons.mp hr' with h1 | h1
      · subst h1
        rw [hsr] at he'
        cases he'
      · have htail := ih (sweepAppend o sol) ⟨r', h1, e', he'⟩
        rcases htail with ⟨e, he⟩
        exact ⟨e, by simp [sweepLoop, hsr, he]⟩

/-- C6: if the solver fails on any rate in the list, the whole sweep aborts
with that propagated failure, and no aggregate — not even a partial one — is
returned. -/
theorem sweep_aborts_on_failure {ε : Type} (rates : List ℚ)
    (solver : ℚ → Except ε SolverResult)
    (h : ∃ r ∈ rates, ∃ e, solver r = Except.error e) :
    (∃ e, sweep_c_rate rates solver = Except.error e)
      ∧ ∀ o : Outputs, sweep_c_rate rates solver ≠ Except.ok o := by
  have herr := sweepLoop_error solver rates (initOutputs rates) h
  refine ⟨herr, ?_⟩
  intro o hok
  rcases herr with ⟨e, he⟩
  rw [sweep_c_rate] at hok
  rw [he] at hok
  cases hok

/-- Witness for C6: a one-rate sweep whose solver always fails aborts. -/
theorem sweep_aborts_on_failure_witness :
    (∃ r ∈ [(1 : ℚ)], ∃ e : ℕ, (fun _ : ℚ => (Except.error 0 : Except ℕ SolverResult)) r
        = Except.error e)
      ∧ (∃ e, sweep_c_rate [(1 : ℚ)] (fun _ : ℚ => (Except.error 0 : Except ℕ SolverResult))
          = Except.error e) :=
  ⟨⟨1, by simp, 0, rfl⟩,
    (sweep_aborts_on_failure [(1 : ℚ)] (fun _ : ℚ => (Except.error 0 : Except ℕ SolverResult))
      ⟨1, by simp, 0, rfl⟩).1⟩

/-- Characterisation of a successful sweep loop run: there is a list of
solver results, one per rate in order, and each metric sequence of the final
aggregate is the starting sequence extended by the per-result metrics; the
`C-rate` field is untouched by the loop. -/
lemma sweepLoop_ok_fields {ε : Type} (solver : ℚ → Except ε SolverResult) :
    ∀ (rs : List ℚ) (o o' : Outputs), sweepLoop solver rs o = Except.ok o' →
      ∃ sols : List SolverResult,
        List.Forall₂ (fun r s => solver r = Except.ok s) rs sols
          ∧ o'.cRate = o.cRate
          ∧ o'.time = o.time ++ sols.map (fun s => s.time)
          ∧ o'.voltage = o.voltage ++ sols.map (fun s => s.voltage)
          ∧ o'.energy = o.energy ++ sols.map (fun s => energySeq s)
          ∧ o'.dischargeEnergy = o.dischargeEnergy ++ sols.map (fun s => dischargeEnergy s)
          ∧ o'.meanPower = o.meanPower ++ sols.map (fun s => meanPower s) := by
  intro rs
  induction rs with
  | nil =>
    intro o o' h
    simp only [sweepLoop, Except.ok.injEq] at h
    subst h
    exact ⟨[], List.Forall₂.nil, rfl, by simp, by simp, by simp, by simp, by simp⟩
  | cons r rs ih =>
    intro o o' h
    cases hsr : solver r with
    | error e =>
      rw [sweepLoop, hsr] at h
      cases h
    | ok sol =>
      rw [sweepLoop, hsr] at h
      obtain ⟨sols, hf, hc, ht, hv, he, hd, hm⟩ := ih (sweepAppend o sol) o' h
      refine ⟨sol :: sols, List.Forall₂.cons hsr hf, ?_, ?_, ?_, ?_, ?_, ?_⟩
      · simpa [sweepAppend] using hc
      · rw [ht]; simp [sweepAppend]
      · rw [hv]; simp [sweepAppend]
      · rw [he]; simp [sweepAppend]
      · rw [hd]; simp [sweepAppend]
      · rw [hm]; simp [sweepAppend]

/-- C9: on successful completion of a sweep over `n` rates, every metric
sequence of the aggregate has exactly `n` entries, the `C-rate` entry equals
the input list, and the `k`-th entry of each sequence is derived from the
solver run for the `k`-th rate of the input list. -/
theorem sweep_aggregate_aligned {ε : Type} (rates : List ℚ)
    (solver : ℚ → Except ε SolverResult) (o : Outputs)
    (h : sweep_c_rate rates solver = Except.ok o) :
    o.cRate = rates
      ∧ o.time.length = rates.length
      ∧ o.voltage.length = rates.length
      ∧ o.energy.length = rates.length
      ∧ o.dischargeEnergy.length = rates.length
      ∧ o.meanPower.length = rates.length
      ∧ ∀ k, k < rates.length → ∃ sol : SolverResult,
          solver (rates[k]?.getD 0) = Except.ok sol
            ∧ o.time[k]? = some sol.time
            ∧ o.voltage[k]? = some sol.voltage
            ∧ o.energy[k]? = some (energySeq sol)
            ∧ o.dischargeEnergy[k]? = some (dischargeEnergy sol)
            ∧ o.meanPower[k]? = some (meanPower sol) := by
  obtain ⟨sols, hf, hc, ht, hv, he, hd, hm⟩ :=
    sweepLoop_ok_fields solver rates (initOutputs rates) o h
  have hlen : rates.length = sols.length := hf.length_eq
  simp only [initOutputs, List.nil_append] at hc ht hv he hd hm
  refine ⟨hc, by rw [ht]; simp [hlen], by rw [hv]; simp [hlen], by rw [he]; simp [hlen],
    by rw [hd]; simp [hlen], by rw [hm]; simp [hlen], ?_⟩
  intro k hk
  have hks : k < sols.length := by omega
  refine ⟨sols.get ⟨k, hks⟩, ?_, ?_, ?_, ?_, ?_, ?_⟩
  · have hrel := (List.forall₂_iff_get.mp hf).2 k hk hks
    have hr : rates[k]?.getD 0 = rates.get ⟨k, hk⟩ := by
      rw [List.getElem?_eq_getElem hk, Option.getD_some, List.get_eq_getElem]
    rw [hr]
    simpa [List.get_eq_getElem] using hrel
  · rw [ht, List.getElem?_map, List.getElem?_eq_getElem hks, Option.map_some',
      List.get_eq_getElem]
  · rw [hv, List.getElem?_map, List.getElem?_eq_getElem hks, Option.map_some',
      List.get_eq_getElem]
  · rw [he, List.getElem?_map, List.getElem?_eq_getElem hks, Option.map_some',
      List.get_eq_getElem]
  · rw [hd, List.getElem?_map, List.getElem?_eq_getElem hks, Option.map_some',
      List.get_eq_getElem]
  · rw [hm, List.getElem?_map, List.getElem?_eq_getElem hks, Option.map_some',
      List.get_eq_getElem]

/-- Witness for C9: a one-rate sweep with an always-succeeding solver returns
an aggregate whose `C-rate` entry is the input list. -/
theorem sweep_aggregate_aligned_witness :
    (sweep_c_rate [(1 : ℚ)] (fun _ : ℚ => (Except.ok solExample : Except ℕ SolverResult))
        = Except.ok (sweepAppend (initOutputs [(1 : ℚ)]) solExample))
      ∧ (sweepAppend (initOutputs [(1 : ℚ)]) solExample).cRate = [(1 : ℚ)] :=
  ⟨rfl,
    (sweep_aggregate_aligned [(1 : ℚ)]
      (fun _ : ℚ => (Except.ok solExample : Except ℕ SolverResult))
      (sweepAppend (initOutputs [(1 : ℚ)]) solExample) rfl).1⟩

/-- Sampling reads only the stream positions it consumes: two streams that
agree on the consumed window produce the same draws. -/
lemma normalDraws_congr (s₁ s₂ : ℕ → ℚ) (cursor : ℕ) (mean std : ℚ) (n : ℕ)
    (h : ∀ i, i < n → s₁ (cursor + i) = s₂ (cursor + i)) :
    normalDraws s₁ cursor mean std n = normalDraws s₂ cursor mean std n := by
  unfold normalDraws
  apply List.map_congr_left
  intro i hi
  rw [h i (List.mem_range.mp hi)]

/-- C8 counterexample: at the concrete stream `i ↦ i` with `N = 1`, the
scenario-2 ratio computed by the source (which reuses the baseline positive
samples) differs from the value the claim describes (positive loading
re-sampled with a fresh RNG draw at cursor `2N`). -/
theorem scenario2_resample_counterexample :
    npr_actual_scenario2 (fun i => (i : ℚ)) 1 ≠ npr_scenario2_respec (fun i => (i : ℚ)) 1 := by
  norm_num [npr_actual_scenario2, npr_scenario2_respec, neg_areal_capacity,
    pos_areal_capacity, neg_loading, pos_loading, normalDraws, areal_capacity,
    NEG_LOADING_MEAN, POS_LOADING_MEAN, NEG_QSP, POS_QSP, neg_loading_std,
    pos_loading_std, NEG_LOADING_CV, POS_LOADING_CV, ANODE_LOADING_INCREASE_FACTOR,
    List.range_succ]

/-- C8 (amended): scenario 2 reuses the baseline positive-electrode samples
rather than re-sampling them: the baseline positive capacities and the
scenario-2 exceedance input depend only on the first `2N` RNG draws (negative
then positive baseline samples), and consume no fresh draw. -/
theorem scenario2_reuses_baseline (s₁ s₂ : ℕ → ℚ) (N : ℕ)
    (h : ∀ i, i < 2 * N → s₁ i = s₂ i) :
    pos_areal_capacity s₁ N = pos_areal_capacity s₂ N
      ∧ npr_actual_scenario2 s₁ N = npr_actual_scenario2 s₂ N := by
  have hneg : neg_loading s₁ N = neg_loading s₂ N := by
    apply normalDraws_congr
    intro i hi
    exact h (0 + i) (by omega)
  have hpos : pos_loading s₁ N = pos_loading s₂ N := by
    apply normalDraws_congr
    intro i hi
    exact h (N + i) (by omega)
  have hposc : pos_areal_capacity s₁ N = pos_areal_capacity s₂ N := by
    unfold pos_areal_capacity
    rw [hpos]
  refine ⟨hposc, ?_⟩
  unfold npr_actual_scenario2 neg_areal_capacity
  rw [hneg, hposc]

/-- Witness for the amended C8: two streams that agree on the first `2N = 4`
draws but differ later give identical scenario-2 results for `N = 2`. -/
theorem scenario2_reuses_baseline_witness :
    (∀ i, i < 2 * 2 → (fun j : ℕ => if j < 4 then (j : ℚ) else 99) i
        = (fun j : ℕ => if j < 4 then (j : ℚ) else 77) i)
      ∧ pos_areal_capacity (fun j : ℕ => if j < 4 then (j : ℚ) else 99) 2
          = pos_areal_capacity (fun j : ℕ => if j < 4 then (j : ℚ) else 77) 2
      ∧ npr_actual_scenario2 (fun j : ℕ => if j < 4 then (j : ℚ) else 99) 2
          = npr_actual_scenario2 (fun j : ℕ => if j < 4 then (j : ℚ) else 77) 2 := by
  have h : ∀ i : ℕ, i < 2 * 2 → (if i < 4 then (i : ℚ) else 99) = (if i < 4 then (i : ℚ) else 77) := by
    intro i hi
    rw [if_pos (show i < 4 by omega), if_pos (show i < 4 by omega)]
  have hc := scenario2_reuses_baseline
    (fun j : ℕ => if j < 4 then (j : ℚ) else 99) (fun j : ℕ => if j < 4 then (j : ℚ) else 77) 2
    (fun i hi => h i hi)
  exact ⟨fun i hi => h i hi, hc.1, hc.2⟩

end CellDesign
